import Mathlib

/-!
Shallow embedding of `src/main.cpp` (Optimizing_Roads_Ford-Fulkerson).

The C++ program models a road network as a capacitated flow graph:
`struct Edge { int source, destination, capacity, flow; }`, a `Graph`
holding a vector of edge records and an adjacency index, a breadth-first
augmenting-path search (`bfs`), an Edmonds–Karp style max-flow solver
(`fordFulkerson`) and a per-edge flow reducer (`reduceFlow`).

Machine `int`s are modelled as `Int` (the programs at issue stay far from
2^31, and no claim concerns overflow).  The `while` loops of the C++ are
modelled with explicit fuel; a run that would not terminate (or would walk
out of its arrays, which is undefined behaviour in C++) yields `none`.
Theorems about completed runs hypothesise a `some` result, and their
witnesses discharge that hypothesis by evaluation on the concrete input.
-/

/-- Edge record, as in `struct Edge`. -/
structure Edge where
  source : Nat
  destination : Nat
  capacity : Int
  flow : Int
deriving DecidableEq, Repr

instance : Inhabited Edge := ⟨⟨0, 0, 0, 0⟩⟩

/-- Graph state: vertex count, edge-record arena, adjacency index.
`givenEdges` models the global `vector<vector<int>> givenEdges`
accumulator that `addEdge` appends to (used only by reporting). -/
structure Graph where
  numVertices : Nat
  edges : List Edge
  adjacencyList : List (List Nat)
  givenEdges : List (Nat × Nat × Int)
deriving DecidableEq, Repr

/-- Graph constructor `Graph(int V)`: `V` vertices, empty edge arena,
`adjacencyList.resize(V)`. -/
def mkGraph (V : Nat) : Graph :=
  ⟨V, [], List.replicate V [], []⟩

/-- Helper: append index `i` to the adjacency list of vertex `u`
(`adjacencyList[u].push_back(i)`). -/
def pushAdj (adj : List (List Nat)) (u : Nat) (i : Nat) : List (List Nat) :=
  adj.set u (adj.getD u [] ++ [i])

/-- Method `Graph::addEdge(source, destination, capacity)`: appends the
forward record and its reverse partner (capacity 0), indexes both, and
records the given triple.  The C++ performs no validation. -/
def addEdge (g : Graph) (source destination : Nat) (capacity : Int) : Graph :=
  let edges' := g.edges ++ [⟨source, destination, capacity, 0⟩,
                            ⟨destination, source, 0, 0⟩]
  { numVertices := g.numVertices
    edges := edges'
    adjacencyList := pushAdj (pushAdj g.adjacencyList source (edges'.length - 2))
                       destination (edges'.length - 1)
    givenEdges := g.givenEdges ++ [(source, destination, capacity)] }

/-- Build a graph from a vertex count and a list of `addEdge` triples. -/
def buildGraph (V : Nat) (ts : List (Nat × Nat × Int)) : Graph :=
  ts.foldl (fun g t => addEdge g t.1 t.2.1 t.2.2) (mkGraph V)

/-- Inner loop of `Graph::bfs`: scan the adjacency list of the dequeued
vertex `u`; for each edge index `i` with unvisited destination and
`capacity > flow`, enqueue the destination, record the parent edge, and
mark it visited. -/
def visitNeighbors (edges : List Edge) :
    List Nat → List Nat → List Bool → List (Option Nat) →
    List Nat × List Bool × List (Option Nat)
  | [], q, visited, parent => (q, visited, parent)
  | i :: rest, q, visited, parent =>
    let e := edges.getD i default
    if ¬ visited.getD e.destination false ∧ e.capacity > e.flow then
      visitNeighbors edges rest (q ++ [e.destination])
        (visited.set e.destination true) (parent.set e.destination (some i))
    else
      visitNeighbors edges rest q visited parent

/-- Queue loop of `Graph::bfs`, fuel-bounded: dequeue, scan neighbours,
repeat until the queue is empty. -/
def bfsLoop (edges : List Edge) (adj : List (List Nat)) :
    Nat → List Nat → List Bool → List (Option Nat) →
    Option (List Bool × List (Option Nat))
  | _, [], visited, parent => some (visited, parent)
  | 0, _ :: _, _, _ => none
  | fuel + 1, u :: qrest, visited, parent =>
    let step := visitNeighbors edges (adj.getD u []) qrest visited parent
    bfsLoop edges adj fuel step.1 step.2.1 step.2.2

/-- Method `Graph::bfs(source, sink, parent)`: full breadth-first
traversal of the residual graph; returns whether the sink was visited
together with the parent map (`parent[source] = -1` is modelled as
`none`; unvisited vertices also carry `none`). -/
def bfs (g : Graph) (source sink : Nat) :
    Option (Bool × List (Option Nat)) :=
  match bfsLoop g.edges g.adjacencyList (g.numVertices + 1) [source]
      ((List.replicate g.numVertices false).set source true)
      (List.replicate g.numVertices none) with
  | none => none
  | some (visited, parent) => some (visited.getD sink false, parent)

/-- Path reconstruction `for (v = sink; v != source; v = edges[parent[v]].source)`:
collect the parent edge indices from the sink back to the source, in the
order the C++ loops visit them. -/
def walkParents (edges : List Edge) (parent : List (Option Nat)) (source : Nat) :
    Nat → Nat → Option (List Nat)
  | 0, _ => none
  | fuel + 1, v =>
    if v = source then some []
    else
      match parent.getD v none with
      | none => none
      | some i =>
        (walkParents edges parent source fuel (edges.getD i default).source).map
          (fun is => i :: is)

/-- Bottleneck of a path: `pathFlow = min(pathFlow, capacity - flow)`
folded from `numeric_limits<int>::max()`. -/
def pathBottleneck (edges : List Edge) (is : List Nat) : Int :=
  is.foldl (fun m i => min m ((edges.getD i default).capacity -
                              (edges.getD i default).flow)) 2147483647

/-- One augmentation update: `edges[i].flow += pathFlow; edges[i^1].flow -= pathFlow`. -/
def augStep (edges : List Edge) (i : Nat) (pf : Int) : List Edge :=
  let e := edges.getD i default
  let edges1 := edges.set i { e with flow := e.flow + pf }
  let e1 := edges1.getD (i ^^^ 1) default
  edges1.set (i ^^^ 1) { e1 with flow := e1.flow - pf }

/-- Apply the augmentation update along the reconstructed path. -/
def augment (edges : List Edge) (is : List Nat) (pf : Int) : List Edge :=
  is.foldl (fun es i => augStep es i pf) edges

/-- Main loop of `Graph::fordFulkerson`, fuel-bounded: while `bfs` finds
an augmenting path, compute the bottleneck, augment along the path, and
accumulate the pushed flow. -/
def ffLoop (source sink : Nat) :
    Nat → Graph → Int → Option (Graph × Int)
  | 0, _, _ => none
  | fuel + 1, g, acc =>
    match bfs g source sink with
    | none => none
    | some (found, parent) =>
      if found then
        match walkParents g.edges parent source (g.numVertices + 1) sink with
        | none => none
        | some is =>
          let pf := pathBottleneck g.edges is
          ffLoop source sink fuel { g with edges := augment g.edges is pf }
            (acc + pf)
      else
        some (g, acc)

/-- Fuel sufficient for every terminating run of the solver: every
successful augmentation pushes at least one unit, bounded by the total
capacity. -/
def ffFuel (g : Graph) : Nat :=
  g.edges.foldl (fun s e => s + e.capacity.toNat) 0 + g.numVertices + 2

/-- Method `Graph::fordFulkerson(source, sink)`: returns the mutated
graph and the flow pushed by this call (the accumulated `pathFlow`s). -/
def fordFulkerson (g : Graph) (source sink : Nat) : Option (Graph × Int) :=
  ffLoop source sink (ffFuel g) g 0

/-- Overwrite the flow of edge record `i` (the reducer's
`e.flow = ...` writes through the reference `Edge &e = edges[i]`). -/
def setFlowAt (g : Graph) (i : Nat) (f : Int) : Graph :=
  { g with edges := g.edges.set i { g.edges.getD i default with flow := f } }

/-- Per-edge body of `Graph::reduceFlow`, iterating `i` over even edge
indices.  The C++ `while (true)` body executes exactly once because its
final statement is an unconditional `break`: decrement the edge's flow,
re-solve, and restore the original flow when the re-solve's return value
differs from the baseline. -/
def reduceEdges (source sink : Nat) (maxFlow : Int) :
    Nat → Nat → Graph → Option Graph
  | 0, _, _ => none
  | fuel + 1, i, g =>
    if i < g.edges.length then
      let originalFlow := (g.edges.getD i default).flow
      let g1 := setFlowAt g i (originalFlow - 1)
      match fordFulkerson g1 source sink with
      | none => none
      | some (g2, newFlow) =>
        let g3 := if newFlow ≠ maxFlow then setFlowAt g2 i originalFlow else g2
        reduceEdges source sink maxFlow fuel (i + 2) g3
    else
      some g

/-- Method `Graph::reduceFlow(source, sink)`: compute the baseline
max flow, then run the per-edge decrement trial over the forward edges. -/
def reduceFlow (g : Graph) (source sink : Nat) : Option Graph :=
  match fordFulkerson g source sink with
  | none => none
  | some (g1, maxFlow) => reduceEdges source sink maxFlow (g1.edges.length + 1) 0 g1

/-- Concrete scenario A from `main`: 6 vertices, ten roads of capacity 20. -/
def graphA : Graph :=
  buildGraph 6 [(0, 1, 20), (0, 2, 20), (1, 2, 20), (1, 3, 20), (2, 1, 20),
                (2, 4, 20), (3, 2, 20), (3, 5, 20), (4, 3, 20), (4, 5, 20)]

/-- Concrete scenario B from `main`: the textbook capacities. -/
def graphB : Graph :=
  buildGraph 6 [(0, 1, 16), (0, 2, 13), (1, 2, 10), (1, 3, 12), (2, 1, 4),
                (2, 4, 14), (3, 2, 9), (3, 5, 20), (4, 3, 7), (4, 5, 4)]

/-- Auxiliary network for probing the reducer: two capacity-2 routes from
0 to 3 that merge into the single bottleneck road (3,4).  Its max flow is
2, carried entirely by the route 0-1-3-4 that the first breadth-first
search selects, so the flow on (0,1) could be lowered to 0 (rerouting via
0-2-3-4) without losing the maximum. -/
def graphC : Graph :=
  buildGraph 5 [(0, 1, 2), (0, 2, 2), (1, 3, 2), (2, 3, 2), (3, 4, 2)]

/-- Sum of flow on forward records (even indices) entering vertex `v`,
scanning the arena from index offset `n`. -/
def flowIntoFrom (v : Nat) : List Edge → Nat → Int
  | [], _ => 0
  | e :: rest, n =>
    (if n % 2 = 0 ∧ e.destination = v then e.flow else 0) + flowIntoFrom v rest (n + 1)

/-- Sum of flow on forward records (even indices) leaving vertex `v`,
scanning the arena from index offset `n`. -/
def flowOutOfFrom (v : Nat) : List Edge → Nat → Int
  | [], _ => 0
  | e :: rest, n =>
    (if n % 2 = 0 ∧ e.source = v then e.flow else 0) + flowOutOfFrom v rest (n + 1)

/-- Total flow on forward edges into `v`. -/
def flowInto (es : List Edge) (v : Nat) : Int := flowIntoFrom v es 0

/-- Total flow on forward edges out of `v`. -/
def flowOutOf (es : List Edge) (v : Nat) : Int := flowOutOfFrom v es 0

/-- Contribution of the record at index `idx` to the net forward flow
into `v` (reverse records, at odd indices, contribute nothing). -/
def contrib (v idx : Nat) (e : Edge) : Int :=
  if idx % 2 = 0 then
    (if e.destination = v then e.flow else 0) - (if e.source = v then e.flow else 0)
  else 0

/-- Net forward flow into `v` scanning from index offset `n`. -/
def excessFrom (v : Nat) : List Edge → Nat → Int
  | [], _ => 0
  | e :: rest, n => contrib v n e + excessFrom v rest (n + 1)

/-- Net forward flow into vertex `v`: inbound minus outbound over the
forward (even-index) records.  Flow conservation at `v` is `excess = 0`. -/
def excess (es : List Edge) (v : Nat) : Int := excessFrom v es 0

/-- Residual-representation pairing invariant: the arena has even length
and each forward/reverse couple `(2k, 2k+1)` carries opposite flows. -/
def pairFlowInv (es : List Edge) : Prop :=
  es.length % 2 = 0 ∧
  ∀ k, k < es.length →
    (es.getD (2 * k) default).flow + (es.getD (2 * k + 1) default).flow = 0

instance pairFlowInv_decidable (es : List Edge) : Decidable (pairFlowInv es) := by
  unfold pairFlowInv
  exact instDecidableAnd

/-- Structural pairing: the arena has even length and the record at
`2k+1` is the reversal of the record at `2k`. -/
def pairedStruct (es : List Edge) : Prop :=
  es.length % 2 = 0 ∧
  ∀ k, k < es.length →
    (es.getD (2 * k + 1) default).source = (es.getD (2 * k) default).destination ∧
    (es.getD (2 * k + 1) default).destination = (es.getD (2 * k) default).source

/-- Every index stored in the adjacency lists is a valid edge index. -/
def adjInv (g : Graph) : Prop :=
  ∀ u, ∀ i ∈ g.adjacencyList.getD u [], i < g.edges.length

/-- Parent-map soundness after a breadth-first search: each recorded
parent edge is a valid index whose destination is the vertex it was
recorded for. -/
def parentInv (es : List Edge) (parent : List (Option Nat)) : Prop :=
  ∀ v i, parent.getD v none = some i →
    i < es.length ∧ (es.getD i default).destination = v

/-- Chain predicate describing what `walkParents` returns: a list of edge
indices leading from `v` backwards to `source`: each edge's destination
is the current vertex, and the walk continues from its source. -/
def isChain (es : List Edge) (source : Nat) : Nat → List Nat → Prop
  | v, [] => v = source
  | v, i :: rest =>
    i < es.length ∧ (es.getD i default).destination = v ∧
    isChain es source (es.getD i default).source rest

/-- All edge records carry zero flow (the freshly built state). -/
def allZeroFlow (es : List Edge) : Prop := ∀ e ∈ es, e.flow = 0

/-- C4: on the 6-vertex network where every edge has capacity 20 (the
edges of scenario A), `fordFulkerson 0 5` on the freshly built network
returns 40. -/
theorem C4_scenarioA_maxflow : (fordFulkerson graphA 0 5).map Prod.snd = some 40 := by
  decide

/-- C5: on the 6-vertex textbook network of scenario B,
`fordFulkerson 0 5` on the freshly built network returns 23. -/
theorem C5_scenarioB_maxflow : (fordFulkerson graphB 0 5).map Prod.snd = some 23 := by
  decide

/-- C1: the reducer is a single decrement trial, not a descending loop.
On `graphC` the baseline maximum is 2 and the solver saturates edge 0
(the road (0,1)) at flow 2; lowering that edge's flow to 1 and re-solving
still reaches total 2 at the sink with no further augmentation, so flow 2
is not the smallest value preserving the maximum — yet `reduceFlow`
leaves edge 0 at flow 2. -/
theorem C1_single_trial_not_descending :
    (fordFulkerson graphC 0 4).map Prod.snd = some 2 ∧
    (reduceFlow graphC 0 4).map (fun g => (g.edges.getD 0 default).flow) = some 2 ∧
    (fordFulkerson graphC 0 4).bind
      (fun p => (fordFulkerson (setFlowAt p.1 0 1) 0 4).map
        (fun q => (excess q.1.edges 4, q.2))) = some (2, 0) := by
  refine ⟨by decide, by decide, by decide⟩

/-- C2: the reducer decrements an edge whose flow is already 0 rather
than skipping it, and leaves a negative flow.  On the 3-vertex network
with single road (1,2) of capacity 5 and source 0, sink 2 (max flow 0),
`reduceFlow` leaves the forward record of (1,2) at flow -1. -/
theorem C2_reduce_leaves_negative_flow :
    (reduceFlow (buildGraph 3 [(1, 2, 5)]) 0 2).map
      (fun g => g.edges.map Edge.flow) = some [-1, 0] := by
  decide

/-- C3: on scenario B itself the reducer corrupts the flow state: after
`reduceFlow`, re-solving finds no further augmentation (it returns 0,
not 23), while the net forward flow into the sink stands at 24, not the
baseline 23 that solving the original network yields. -/
theorem C3_reduce_breaks_scenarioB_total :
    (fordFulkerson graphB 0 5).map Prod.snd = some 23 ∧
    (reduceFlow graphB 0 5).bind
      (fun g => (fordFulkerson g 0 5).map
        (fun q => (excess q.1.edges 5, q.2))) = some (24, 0) := by
  refine ⟨by decide, by decide⟩

/-- C7 counterexample: on the already-maximal single-road network
(0,1,5), the first `fordFulkerson` call returns 5 but the repeat call
returns 0 — not the same total (the edge flows are indeed unchanged). -/
theorem C7_counterexample_second_solve_returns_zero :
    (fordFulkerson (buildGraph 2 [(0, 1, 5)]) 0 1).bind
      (fun p => (fordFulkerson p.1 0 1).map
        (fun q => (p.2, q.2, q.1.edges == p.1.edges))) = some (5, 0, true) ∧
    (5 : Int) ≠ 0 := by
  refine ⟨by decide, by decide⟩

/-- C8 counterexample: `addEdge` performs no validation.  A call with
negative capacity -5 does not fail; it appends the forward/reverse edge
pair, both adjacency entries, and the original-edge record. -/
theorem C8_counterexample_negative_capacity_mutates :
    (addEdge (mkGraph 2) 0 1 (-5)).edges = [⟨0, 1, -5, 0⟩, ⟨1, 0, 0, 0⟩] ∧
    (addEdge (mkGraph 2) 0 1 (-5)).adjacencyList = [[0], [1]] ∧
    (addEdge (mkGraph 2) 0 1 (-5)).givenEdges = [(0, 1, -5)] := by
  refine ⟨by decide, by decide, by decide⟩

/-- C9 counterexample: after `reduceFlow` on the single-road network
(0,1,1), the forward record carries flow 1 while its reverse partner
carries flow -2, so `forward.flow = -reverse.flow` fails after Reduce. -/
theorem C9_counterexample_pairing_broken_by_reduce :
    (reduceFlow (buildGraph 2 [(0, 1, 1)]) 0 1).map
      (fun g => g.edges.map Edge.flow) = some [1, -2] ∧
    (1 : Int) ≠ -(-2) := by
  refine ⟨by decide, by decide⟩

/-- Helper: one solver iteration with no augmenting path returns the
graph unchanged together with the accumulator. -/
theorem ffLoop_of_no_path {g : Graph} {source sink : Nat} {p : List (Option Nat)}
    (hb : bfs g source sink = some (false, p)) (fuel : Nat) (acc : Int) :
    ffLoop source sink (fuel + 1) g acc = some (g, acc) := by
  simp [ffLoop, hb]

/-- C7 amended: on a network with no remaining augmenting path,
`fordFulkerson` leaves every edge's flow unchanged (the graph is returned
as is) and returns 0 — the augmentation pushed by this call — rather
than the total of the original solve. -/
theorem C7_amended_resolve_is_noop_returning_zero {g : Graph} {s t : Nat}
    (h : (bfs g s t).map Prod.fst = some false) :
    fordFulkerson g s t = some (g, 0) := by
  obtain ⟨p, hp⟩ : ∃ p, bfs g s t = some (false, p) := by
    cases hb : bfs g s t with
    | none => rw [hb] at h; simp at h
    | some v =>
      rw [hb] at h
      simp at h
      exact ⟨v.2, by rw [← h]⟩
  show ffLoop s t (ffFuel g) g 0 = some (g, 0)
  have hf : ffFuel g =
      (g.edges.foldl (fun s e => s + e.capacity.toNat) 0 + g.numVertices + 1) + 1 := rfl
  rw [hf]
  exact ffLoop_of_no_path hp _ 0

/-- Witness for C7 amended: the solved single-road network (0,1,5) has
no augmenting path, and re-solving returns the same graph with 0. -/
theorem C7_amended_witness :
    fordFulkerson ((fordFulkerson (buildGraph 2 [(0, 1, 5)]) 0 1).getD
        (mkGraph 0, 0)).1 0 1 =
      some (((fordFulkerson (buildGraph 2 [(0, 1, 5)]) 0 1).getD (mkGraph 0, 0)).1, 0) :=
  C7_amended_resolve_is_noop_returning_zero (by decide)

/-- C8 amended: `addEdge` performs no validation at all.  For every
graph state and every call — negative capacity included — it appends the
forward/reverse record pair, the original-edge triple, and (for in-range
endpoints) the two adjacency entries; it never fails and never leaves
the state unchanged. -/
theorem C8_amended_addEdge_always_appends (g : Graph) (u v : Nat) (c : Int) :
    (addEdge g u v c).edges = g.edges ++ [⟨u, v, c, 0⟩, ⟨v, u, 0, 0⟩] ∧
    (addEdge g u v c).givenEdges = g.givenEdges ++ [(u, v, c)] ∧
    (addEdge g u v c).numVertices = g.numVertices ∧
    (addEdge g u v c).adjacencyList =
      pushAdj (pushAdj g.adjacencyList u (g.edges.length))
        v (g.edges.length + 1) := by
  refine ⟨by simp [addEdge], by simp [addEdge], by simp [addEdge], ?_⟩
  simp [addEdge]

theorem getD_set_self {α : Type} {l : List α} {i : Nat} {a d : α} (h : i < l.length) :
    (l.set i a).getD i d = a := by
  simp [List.getD_eq_getElem?_getD, List.getElem?_set_self, h]

theorem getD_set_ne {α : Type} {l : List α} {i j : Nat} {a d : α} (h : i ≠ j) :
    (l.set i a).getD j d = l.getD j d := by
  simp [List.getD_eq_getElem?_getD, List.getElem?_set_ne h]

theorem two_mul_xor_one (m : Nat) : (2 * m) ^^^ 1 = 2 * m + 1 := by
  have h := Nat.xor_bit false m true 0
  simpa [Nat.bit] using h

theorem two_mul_add_one_xor_one (m : Nat) : (2 * m + 1) ^^^ 1 = 2 * m := by
  have h := Nat.xor_bit true m true 0
  simpa [Nat.bit] using h

theorem xor_one_ne (i : Nat) : i ^^^ 1 ≠ i := by
  intro h
  have h0 : i ^^^ 1 = i ^^^ 0 := by simpa using h
  have := Nat.xor_right_inj.mp h0
  simp at this

theorem xor_one_lt {len i : Nat} (hlen : len % 2 = 0) (hi : i < len) :
    i ^^^ 1 < len := by
  rcases Nat.even_or_odd i with ⟨m, hm⟩ | ⟨m, hm⟩
  · have hi' : i = 2 * m := by omega
    rw [hi', two_mul_xor_one]
    omega
  · have hi' : i = 2 * m + 1 := by omega
    rw [hi', two_mul_add_one_xor_one]
    omega

theorem length_augStep (es : List Edge) (i : Nat) (pf : Int) :
    (augStep es i pf).length = es.length := by
  simp [augStep]

theorem augStep_of_ge {es : List Edge} {i : Nat} (pf : Int)
    (hi : es.length ≤ i) (hlen : es.length % 2 = 0) : augStep es i pf = es := by
  have h1 : es.length ≤ i ^^^ 1 := by
    rcases Nat.even_or_odd i with ⟨m, hm⟩ | ⟨m, hm⟩
    · have hi' : i = 2 * m := by omega
      rw [hi', two_mul_xor_one]; omega
    · have hi' : i = 2 * m + 1 := by omega
      rw [hi', two_mul_add_one_xor_one]; omega
  simp [augStep, List.set_eq_of_length_le hi, List.set_eq_of_length_le h1]

theorem augStep_getD_flow (es : List Edge) (i : Nat) (pf : Int) (j : Nat)
    (hi : i < es.length) (hlen : es.length % 2 = 0) :
    ((augStep es i pf).getD j default).flow =
      (es.getD j default).flow + (if j = i then pf else 0) -
        (if j = i ^^^ 1 then pf else 0) := by
  unfold augStep
  have hne : i ≠ i ^^^ 1 := (xor_one_ne i).symm
  have hx : i ^^^ 1 < es.length := xor_one_lt hlen hi
  by_cases hj1 : j = i ^^^ 1
  · subst hj1
    rw [getD_set_self (by simpa using hx), getD_set_ne hne]
    simp [xor_one_ne i]
  · rw [getD_set_ne (fun h => hj1 h.symm)]
    by_cases hj : j = i
    · subst hj
      rw [getD_set_self hi]
      simp [hne]
    · rw [getD_set_ne (fun h => hj h.symm)]
      simp [hj, hj1]

theorem augStep_getD_keeps (es : List Edge) (i : Nat) (pf : Int) (j : Nat) :
    ((augStep es i pf).getD j default).source = (es.getD j default).source ∧
    ((augStep es i pf).getD j default).destination = (es.getD j default).destination ∧
    ((augStep es i pf).getD j default).capacity = (es.getD j default).capacity := by
  unfold augStep
  have hne : i ≠ i ^^^ 1 := (xor_one_ne i).symm
  by_cases hj1 : j = i ^^^ 1
  · subst hj1
    by_cases hx : i ^^^ 1 < es.length
    · rw [getD_set_self (by simpa using hx), getD_set_ne hne]
      exact ⟨rfl, rfl, rfl⟩
    · rw [List.set_eq_of_length_le (by simpa using Nat.le_of_not_lt hx),
        getD_set_ne hne]
      exact ⟨rfl, rfl, rfl⟩
  · rw [getD_set_ne (fun h => hj1 h.symm)]
    by_cases hj : j = i
    · subst hj
      by_cases hij : j < es.length
      · rw [getD_set_self hij]
        exact ⟨rfl, rfl, rfl⟩
      · rw [List.set_eq_of_length_le (Nat.le_of_not_lt hij)]
        exact ⟨rfl, rfl, rfl⟩
    · rw [getD_set_ne (fun h => hj h.symm)]
      exact ⟨rfl, rfl, rfl⟩

theorem pairFlowInv_augStep {es : List Edge} (h : pairFlowInv es) (i : Nat) (pf : Int) :
    pairFlowInv (augStep es i pf) := by
  obtain ⟨hlen, hpair⟩ := h
  by_cases hi : i < es.length
  · refine ⟨by rw [length_augStep]; exact hlen, ?_⟩
    intro k hk
    rw [length_augStep] at hk
    rw [augStep_getD_flow es i pf (2 * k) hi hlen,
        augStep_getD_flow es i pf (2 * k + 1) hi hlen]
    have hp := hpair k hk
    rcases Nat.even_or_odd i with ⟨m, hm⟩ | ⟨m, hm⟩
    · have hi' : i = 2 * m := by omega
      subst hi'
      rw [two_mul_xor_one]
      split_ifs <;> omega
    · have hi' : i = 2 * m + 1 := by omega
      subst hi'
      rw [two_mul_add_one_xor_one]
      split_ifs <;> omega
  · rw [augStep_of_ge pf (Nat.le_of_not_lt hi) hlen]
    exact ⟨hlen, hpair⟩

theorem pairFlowInv_augment {es : List Edge} (h : pairFlowInv es)
    (is : List Nat) (pf : Int) : pairFlowInv (augment es is pf) := by
  induction is generalizing es with
  | nil => exact h
  | cons i rest ih => exact ih (pairFlowInv_augStep h i pf)

theorem pairFlowInv_ffLoop {s t : Nat} {fuel : Nat} {g g' : Graph} {acc tot : Int}
    (h : pairFlowInv g.edges)
    (hr : ffLoop s t fuel g acc = some (g', tot)) : pairFlowInv g'.edges := by
  induction fuel generalizing g acc with
  | zero => simp [ffLoop] at hr
  | succ fuel ih =>
    rw [ffLoop] at hr
    cases hb : bfs g s t with
    | none => rw [hb] at hr; simp at hr
    | some fp =>
      obtain ⟨found, parent⟩ := fp
      rw [hb] at hr
      cases found with
      | false =>
        simp at hr
        rw [← hr.1]
        exact h
      | true =>
        simp only [if_true] at hr
        cases hw : walkParents g.edges parent s (g.numVertices + 1) t with
        | none => rw [hw] at hr; simp at hr
        | some is =>
          rw [hw] at hr
          exact ih (pairFlowInv_augment h is _) hr

theorem foldl_addEdge_inv (P : Graph → Prop)
    (hstep : ∀ g u v c, P g → P (addEdge g u v c)) :
    ∀ ts : List (Nat × Nat × Int), ∀ g : Graph, P g →
      P (ts.foldl (fun g t => addEdge g t.1 t.2.1 t.2.2) g) := by
  intro ts
  induction ts with
  | nil => intro g h; exact h
  | cons t rest ih => intro g h; exact ih _ (hstep _ _ _ _ h)

theorem length_addEdge (g : Graph) (u v : Nat) (c : Int) :
    (addEdge g u v c).edges.length = g.edges.length + 2 := by
  simp [addEdge]

theorem getD_append_left {α : Type} {l1 l2 : List α} {j : Nat} {d : α}
    (h : j < l1.length) : (l1 ++ l2).getD j d = l1.getD j d := by
  simp [List.getD_eq_getElem?_getD, List.getElem?_append_left h]

theorem getD_append_full {α : Type} (l1 l2 : List α) (j : Nat) (d : α) :
    (l1 ++ l2).getD (l1.length + j) d = l2.getD j d := by
  simp [List.getD_eq_getElem?_getD, List.getElem?_append_right (Nat.le_add_right _ _)]

theorem getD_of_ge {α : Type} {l : List α} {j : Nat} (d : α)
    (h : l.length ≤ j) : l.getD j d = d := by
  simp [List.getD_eq_getElem?_getD, List.getElem?_eq_none h]

theorem pairFlowInv_addEdge {g : Graph} (h : pairFlowInv g.edges)
    (u v : Nat) (c : Int) : pairFlowInv (addEdge g u v c).edges := by
  obtain ⟨hlen, hpair⟩ := h
  have hed : (addEdge g u v c).edges =
      g.edges ++ [Edge.mk u v c 0, Edge.mk v u 0 0] := by simp [addEdge]
  rw [hed]
  constructor
  · simp; omega
  · intro k hk
    simp at hk
    by_cases h1 : 2 * k + 1 < g.edges.length
    · rw [getD_append_left (by omega), getD_append_left h1]
      exact hpair k (by omega)
    · by_cases h2 : 2 * k = g.edges.length
      · have e1 : (g.edges ++ [Edge.mk u v c 0, Edge.mk v u 0 0]).getD (2 * k) default =
            Edge.mk u v c 0 := by
          rw [h2]
          have := getD_append_full g.edges [Edge.mk u v c 0, Edge.mk v u 0 0] 0 default
          simpa using this
        have e2 : (g.edges ++ [Edge.mk u v c 0, Edge.mk v u 0 0]).getD (2 * k + 1) default =
            Edge.mk v u 0 0 := by
          rw [h2]
          have := getD_append_full g.edges [Edge.mk u v c 0, Edge.mk v u 0 0] 1 default
          simpa using this
        rw [e1, e2]
        rfl
      · have hge : g.edges.length + 2 ≤ 2 * k := by omega
        rw [getD_of_ge default (by simp; omega), getD_of_ge default (by simp; omega)]
        rfl

theorem pairFlowInv_buildGraph (V : Nat) (ts : List (Nat × Nat × Int)) :
    pairFlowInv (buildGraph V ts).edges := by
  refine foldl_addEdge_inv (fun g => pairFlowInv g.edges)
    (fun g u v c h => pairFlowInv_addEdge h u v c) ts (mkGraph V) ?_
  exact ⟨rfl, fun k hk => by simp [mkGraph] at hk⟩

/-- C9 amended: the pairing invariant `forward.flow = -reverse.flow`
holds for every freshly built network and is preserved throughout and
after every `fordFulkerson` call; it is `reduceFlow` that breaks it (see
the counterexample), so the claim's "at all times" fails only for the
reducer. -/
theorem C9_amended_pairing_holds_through_solve (V : Nat)
    (ts : List (Nat × Nat × Int)) (g : Graph) (s t : Nat) (g' : Graph) (r : Int) :
    pairFlowInv (buildGraph V ts).edges ∧
    (pairFlowInv g.edges → fordFulkerson g s t = some (g', r) →
      pairFlowInv g'.edges) :=
  ⟨pairFlowInv_buildGraph V ts, fun h hr => pairFlowInv_ffLoop h hr⟩

/-- Witness for C9 amended: the single-road network (0,1,1) satisfies
the pairing invariant when built and still satisfies it after Solve. -/
theorem C9_amended_pairing_witness :
    pairFlowInv (buildGraph 2 [(0, 1, 1)]).edges ∧
    pairFlowInv ((fordFulkerson (buildGraph 2 [(0, 1, 1)]) 0 1).getD
      (mkGraph 0, 0)).1.edges :=
  ⟨(C9_amended_pairing_holds_through_solve 2 [(0, 1, 1)] (mkGraph 0) 0 1
      (mkGraph 0) 0).1,
   (C9_amended_pairing_holds_through_solve 2 [(0, 1, 1)]
      (buildGraph 2 [(0, 1, 1)]) 0 1
      ((fordFulkerson (buildGraph 2 [(0, 1, 1)]) 0 1).getD (mkGraph 0, 0)).1
      ((fordFulkerson (buildGraph 2 [(0, 1, 1)]) 0 1).getD (mkGraph 0, 0)).2).2
     (by decide) (by decide)⟩

theorem excessFrom_set (v : Nat) (es : List Edge) (j n : Nat) (a : Edge)
    (hj : j < es.length) :
    excessFrom v (es.set j a) n =
      excessFrom v es n + contrib v (n + j) a - contrib v (n + j) (es.getD j default) := by
  induction es generalizing j n with
  | nil => simp at hj
  | cons e rest ih =>
    cases j with
    | zero =>
      simp only [List.set_cons_zero, excessFrom, Nat.add_zero, List.getD_cons_zero]
      ring
    | succ j' =>
      simp only [List.set_cons_succ, excessFrom, List.getD_cons_succ]
      have := ih j' (n + 1) (by simpa using Nat.lt_of_succ_lt_succ hj)
      rw [this]
      have harith : n + 1 + j' = n + (j' + 1) := by omega
      rw [harith]
      ring

theorem contrib_flow_shift (v idx : Nat) (e : Edge) (pf : Int) :
    contrib v idx { e with flow := e.flow + pf } - contrib v idx e =
      (if idx % 2 = 0 then
        pf * ((if e.destination = v then 1 else 0) - (if e.source = v then 1 else 0))
       else 0) := by
  unfold contrib
  split_ifs <;> ring

theorem contrib_flow_shift_neg (v idx : Nat) (e : Edge) (pf : Int) :
    contrib v idx { e with flow := e.flow - pf } - contrib v idx e =
      (if idx % 2 = 0 then
        (-pf) * ((if e.destination = v then 1 else 0) - (if e.source = v then 1 else 0))
       else 0) := by
  unfold contrib
  split_ifs <;> ring

theorem excess_augStep (es : List Edge) (i : Nat) (pf : Int) (w : Nat)
    (hps : pairedStruct es) (hi : i < es.length) :
    excess (augStep es i pf) w =
      excess es w +
        pf * ((if (es.getD i default).destination = w then 1 else 0) -
              (if (es.getD i default).source = w then 1 else 0)) := by
  obtain ⟨hlen, hpair⟩ := hps
  have hx : i ^^^ 1 < es.length := xor_one_lt hlen hi
  have hne : i ≠ i ^^^ 1 := (xor_one_ne i).symm
  have hstep : augStep es i pf =
      (es.set i { es.getD i default with
          flow := (es.getD i default).flow + pf }).set (i ^^^ 1)
        { es.getD (i ^^^ 1) default with
          flow := (es.getD (i ^^^ 1) default).flow - pf } := by
    simp only [augStep]
    rw [getD_set_ne hne]
  rw [hstep]
  unfold excess
  rw [excessFrom_set w _ (i ^^^ 1) 0 _ (by simpa using hx), getD_set_ne hne,
    excessFrom_set w es i 0 _ hi]
  simp only [Nat.zero_add]
  rcases Nat.even_or_odd i with ⟨m, hm⟩ | ⟨m, hm⟩
  · have hi2 : i = 2 * m := by omega
    subst hi2
    rw [two_mul_xor_one]
    have h1 := contrib_flow_shift w (2 * m) (es.getD (2 * m) default) pf
    have h2 := contrib_flow_shift_neg w (2 * m + 1) (es.getD (2 * m + 1) default) pf
    rw [if_pos (by omega : (2 * m) % 2 = 0)] at h1
    rw [if_neg (by omega : ¬ (2 * m + 1) % 2 = 0)] at h2
    linear_combination h1 + h2
  · have hi2 : i = 2 * m + 1 := by omega
    subst hi2
    rw [two_mul_add_one_xor_one]
    have h1 := contrib_flow_shift w (2 * m + 1) (es.getD (2 * m + 1) default) pf
    have h2 := contrib_flow_shift_neg w (2 * m) (es.getD (2 * m) default) pf
    rw [if_neg (by omega : ¬ (2 * m + 1) % 2 = 0)] at h1
    rw [if_pos (by omega : (2 * m) % 2 = 0)] at h2
    obtain ⟨hs, hd⟩ := hpair m (by omega)
    have h3 : (if (es.getD (2 * m) default).destination = w then (1 : Int) else 0) =
        (if (es.getD (2 * m + 1) default).source = w then 1 else 0) := by rw [hs]
    have h4 : (if (es.getD (2 * m) default).source = w then (1 : Int) else 0) =
        (if (es.getD (2 * m + 1) default).destination = w then 1 else 0) := by rw [hd]
    linear_combination h1 + h2 - pf * h3 + pf * h4

theorem pairedStruct_augStep {es : List Edge} (h : pairedStruct es)
    (i : Nat) (pf : Int) : pairedStruct (augStep es i pf) := by
  obtain ⟨hlen, hpair⟩ := h
  refine ⟨by rw [length_augStep]; exact hlen, ?_⟩
  intro k hk
  rw [length_augStep] at hk
  obtain ⟨hs1, hd1, _⟩ := augStep_getD_keeps es i pf (2 * k + 1)
  obtain ⟨hs0, hd0, _⟩ := augStep_getD_keeps es i pf (2 * k)
  rw [hs1, hd1, hs0, hd0]
  exact hpair k hk

theorem pairedStruct_augment {es : List Edge} (h : pairedStruct es)
    (is : List Nat) (pf : Int) : pairedStruct (augment es is pf) := by
  induction is generalizing es with
  | nil => exact h
  | cons i rest ih => exact ih (pairedStruct_augStep h i pf)

theorem isChain_augStep {es : List Edge} {source v : Nat} {l : List Nat}
    (i : Nat) (pf : Int) (h : isChain es source v l) :
    isChain (augStep es i pf) source v l := by
  induction l generalizing v with
  | nil => exact h
  | cons j rest ih =>
    obtain ⟨hj, hd, hrest⟩ := h
    obtain ⟨hs, hdd, _⟩ := augStep_getD_keeps es i pf j
    refine ⟨by rw [length_augStep]; exact hj, by rw [hdd]; exact hd, ?_⟩
    rw [hs]
    exact ih hrest

theorem excess_augment {es : List Edge} {source v : Nat} {is : List Nat}
    (hps : pairedStruct es) (hch : isChain es source v is) (pf : Int) (w : Nat) :
    excess (augment es is pf) w =
      excess es w + pf * ((if v = w then 1 else 0) - (if source = w then 1 else 0)) := by
  induction is generalizing es v with
  | nil =>
    have hv : v = source := hch
    subst hv
    simp [augment]
  | cons i rest ih =>
    obtain ⟨hi, hd, hrest⟩ := hch
    have hstep : augment es (i :: rest) pf = augment (augStep es i pf) rest pf := rfl
    rw [hstep]
    rw [ih (pairedStruct_augStep hps i pf) (isChain_augStep i pf hrest)]
    rw [excess_augStep es i pf w hps hi]
    rw [hd]
    ring

theorem parentInv_set {es : List Edge} {parent : List (Option Nat)}
    (hp : parentInv es parent) {i : Nat} (hi : i < es.length) :
    parentInv es (parent.set (es.getD i default).destination (some i)) := by
  intro v j hj
  by_cases hv : v = (es.getD i default).destination
  · subst hv
    by_cases hlt : (es.getD i default).destination < parent.length
    · rw [getD_set_self hlt] at hj
      obtain rfl : i = j := Option.some.inj hj
      exact ⟨hi, rfl⟩
    · rw [List.set_eq_of_length_le (Nat.le_of_not_lt hlt)] at hj
      exact hp _ _ hj
  · rw [getD_set_ne (fun h => hv h.symm)] at hj
    exact hp _ _ hj

theorem visitNeighbors_parentInv {es : List Edge} :
    ∀ {is : List Nat} {q : List Nat} {visited : List Bool} {parent : List (Option Nat)},
      (∀ i ∈ is, i < es.length) → parentInv es parent →
      parentInv es (visitNeighbors es is q visited parent).2.2 := by
  intro is
  induction is with
  | nil => intro q visited parent _ hp; exact hp
  | cons i rest ih =>
    intro q visited parent hval hp
    simp only [visitNeighbors]
    split
    · exact ih (fun j hj => hval j (List.mem_cons_of_mem _ hj))
        (parentInv_set hp (hval i (List.mem_cons_self _ _)))
    · exact ih (fun j hj => hval j (List.mem_cons_of_mem _ hj)) hp

theorem bfsLoop_parentInv {es : List Edge} {adj : List (List Nat)}
    (hadj : ∀ u, ∀ i ∈ adj.getD u [], i < es.length) :
    ∀ fuel (q : List Nat) (visited : List Bool) (parent : List (Option Nat))
      (vis' : List Bool) (par' : List (Option Nat)),
      parentInv es parent →
      bfsLoop es adj fuel q visited parent = some (vis', par') →
      parentInv es par' := by
  intro fuel
  induction fuel with
  | zero =>
    intro q visited parent vis' par' hp hr
    cases q with
    | nil =>
      simp only [bfsLoop] at hr
      injection hr with h
      injection h with h1 h2
      subst h1
      subst h2
      exact hp
    | cons u qrest => simp [bfsLoop] at hr
  | succ fuel ih =>
    intro q visited parent vis' par' hp hr
    cases q with
    | nil =>
      simp only [bfsLoop] at hr
      injection hr with h
      injection h with h1 h2
      subst h1
      subst h2
      exact hp
    | cons u qrest =>
      simp only [bfsLoop] at hr
      exact ih _ _ _ _ _ (visitNeighbors_parentInv (hadj u) hp) hr

theorem bfs_parentInv {g : Graph} {source sink : Nat} {found : Bool}
    {parent : List (Option Nat)} (hadj : adjInv g)
    (hb : bfs g source sink = some (found, parent)) :
    parentInv g.edges parent := by
  unfold bfs at hb
  cases hl : bfsLoop g.edges g.adjacencyList (g.numVertices + 1) [source]
      ((List.replicate g.numVertices false).set source true)
      (List.replicate g.numVertices none) with
  | none => rw [hl] at hb; cases hb
  | some vp =>
    obtain ⟨vis, par⟩ := vp
    rw [hl] at hb
    injection hb with h
    injection h with h1 h2
    subst h2
    refine bfsLoop_parentInv hadj _ _ _ _ _ _ ?_ hl
    intro v j hj
    have : (List.replicate g.numVertices (none : Option Nat)).getD v none = none := by
      simp [List.getD_eq_getElem?_getD, List.getElem?_replicate]
      split <;> rfl
    rw [this] at hj
    cases hj

theorem walkParents_chain {es : List Edge} {parent : List (Option Nat)}
    {source : Nat} (hp : parentInv es parent) :
    ∀ fuel (v : Nat) (is : List Nat),
      walkParents es parent source fuel v = some is → isChain es source v is := by
  intro fuel
  induction fuel with
  | zero => intro v is h; simp [walkParents] at h
  | succ fuel ih =>
    intro v is h
    rw [walkParents] at h
    by_cases hv : v = source
    · rw [if_pos hv] at h
      injection h with h'
      subst h'
      exact hv
    · rw [if_neg hv] at h
      cases hpar : parent.getD v none with
      | none => rw [hpar] at h; cases h
      | some i =>
        rw [hpar] at h
        dsimp only at h
        cases hw : walkParents es parent source fuel (es.getD i default).source with
        | none => rw [hw] at h; cases h
        | some is' =>
          rw [hw] at h
          injection h with h'
          subst h'
          obtain ⟨hi, hd⟩ := hp v i hpar
          exact ⟨hi, hd, ih _ _ hw⟩

theorem length_augment (es : List Edge) (is : List Nat) (pf : Int) :
    (augment es is pf).length = es.length := by
  induction is generalizing es with
  | nil => rfl
  | cons i rest ih =>
    rw [show augment es (i :: rest) pf = augment (augStep es i pf) rest pf from rfl,
      ih (augStep es i pf), length_augStep]

theorem adjInv_augment (g : Graph) (is : List Nat) (pf : Int) (h : adjInv g) :
    adjInv { g with edges := augment g.edges is pf } := by
  intro u i hi
  simp only [length_augment]
  exact h u i hi

theorem ffLoop_conserve {s t : Nat} :
    ∀ (fuel : Nat) (g : Graph) (acc : Int) (g' : Graph) (tot : Int),
      adjInv g → pairedStruct g.edges →
      (∀ v, v ≠ s → v ≠ t → excess g.edges v = 0) →
      ffLoop s t fuel g acc = some (g', tot) →
      ∀ v, v ≠ s → v ≠ t → excess g'.edges v = 0 := by
  intro fuel
  induction fuel with
  | zero => intro g acc g' tot _ _ _ hr; simp [ffLoop] at hr
  | succ fuel ih =>
    intro g acc g' tot hadj hps hc hr
    rw [ffLoop] at hr
    cases hb : bfs g s t with
    | none => rw [hb] at hr; cases hr
    | some fp =>
      obtain ⟨found, parent⟩ := fp
      rw [hb] at hr
      cases found with
      | false =>
        simp only [Bool.false_eq_true, if_false] at hr
        injection hr with h
        injection h with h1 h2
        subst h1
        exact hc
      | true =>
        simp only [if_true] at hr
        cases hw : walkParents g.edges parent s (g.numVertices + 1) t with
        | none => rw [hw] at hr; cases hr
        | some is =>
          rw [hw] at hr
          have hchain : isChain g.edges s t is :=
            walkParents_chain (bfs_parentInv hadj hb) _ _ _ hw
          refine ih _ _ _ _ (adjInv_augment g is _ hadj)
            (pairedStruct_augment hps is _) ?_ hr
          intro v hvs hvt
          have := excess_augment hps hchain (pathBottleneck g.edges is) v
          simp only [this, hc v hvs hvt, if_neg (Ne.symm hvt), if_neg (Ne.symm hvs)]
          ring

theorem mem_pushAdj {adj : List (List Nat)} {w j u i : Nat}
    (h : i ∈ (pushAdj adj w j).getD u []) : i ∈ adj.getD u [] ∨ i = j := by
  unfold pushAdj at h
  by_cases hu : w = u
  · subst hu
    by_cases hw : w < adj.length
    · rw [getD_set_self hw] at h
      rcases List.mem_append.mp h with h | h
      · exact Or.inl h
      · simp at h
        exact Or.inr h
    · rw [List.set_eq_of_length_le (Nat.le_of_not_lt hw)] at h
      exact Or.inl h
  · rw [getD_set_ne hu] at h
    exact Or.inl h

theorem adjInv_addEdge {g : Graph} (h : adjInv g) (u v : Nat) (c : Int) :
    adjInv (addEdge g u v c) := by
  intro w i hi
  have hlen : (addEdge g u v c).edges.length = g.edges.length + 2 := by
    simp [addEdge]
  have hadj : (addEdge g u v c).adjacencyList =
      pushAdj (pushAdj g.adjacencyList u g.edges.length) v (g.edges.length + 1) := by
    simp [addEdge]
  rw [hlen]
  rw [hadj] at hi
  rcases mem_pushAdj hi with hi' | rfl
  · rcases mem_pushAdj hi' with hi'' | rfl
    · have := h w i hi''
      omega
    · omega
  · omega

theorem adjInv_mkGraph (V : Nat) : adjInv (mkGraph V) := by
  intro u i hi
  have : (List.replicate V ([] : List Nat)).getD u [] = [] := by
    simp [List.getD_eq_getElem?_getD, List.getElem?_replicate]
    split <;> rfl
  simp only [mkGraph] at hi
  rw [this] at hi
  cases hi

theorem adjInv_buildGraph (V : Nat) (ts : List (Nat × Nat × Int)) :
    adjInv (buildGraph V ts) :=
  foldl_addEdge_inv adjInv (fun _ u v c h => adjInv_addEdge h u v c) ts
    (mkGraph V) (adjInv_mkGraph V)

theorem pairedStruct_addEdge {g : Graph} (h : pairedStruct g.edges)
    (u v : Nat) (c : Int) : pairedStruct (addEdge g u v c).edges := by
  obtain ⟨hlen, hpair⟩ := h
  have hed : (addEdge g u v c).edges =
      g.edges ++ [Edge.mk u v c 0, Edge.mk v u 0 0] := by simp [addEdge]
  rw [hed]
  constructor
  · simp
    omega
  · intro k hk
    simp at hk
    by_cases h1 : 2 * k + 1 < g.edges.length
    · rw [getD_append_left h1,
        getD_append_left (show 2 * k < g.edges.length by omega)]
      exact hpair k (by omega)
    · by_cases h2 : 2 * k = g.edges.length
      · have e1 : (g.edges ++ [Edge.mk u v c 0, Edge.mk v u 0 0]).getD (2 * k) default =
            Edge.mk u v c 0 := by
          rw [h2]
          have := getD_append_full g.edges [Edge.mk u v c 0, Edge.mk v u 0 0] 0 default
          simpa using this
        have e2 : (g.edges ++ [Edge.mk u v c 0, Edge.mk v u 0 0]).getD (2 * k + 1) default =
            Edge.mk v u 0 0 := by
          rw [h2]
          have := getD_append_full g.edges [Edge.mk u v c 0, Edge.mk v u 0 0] 1 default
          simpa using this
        rw [e1, e2]
        exact ⟨rfl, rfl⟩
      · rw [getD_of_ge default (by simp; omega), getD_of_ge default (by simp; omega)]
        exact ⟨rfl, rfl⟩

theorem pairedStruct_buildGraph (V : Nat) (ts : List (Nat × Nat × Int)) :
    pairedStruct (buildGraph V ts).edges := by
  refine foldl_addEdge_inv (fun g => pairedStruct g.edges)
    (fun _ u v c h => pairedStruct_addEdge h u v c) ts (mkGraph V) ?_
  exact ⟨rfl, fun k hk => by simp [mkGraph] at hk⟩

theorem allZeroFlow_buildGraph (V : Nat) (ts : List (Nat × Nat × Int)) :
    allZeroFlow (buildGraph V ts).edges := by
  refine foldl_addEdge_inv (fun g => allZeroFlow g.edges)
    (fun g u v c h => ?_) ts (mkGraph V) (fun e he => by simp [mkGraph] at he)
  intro e he
  have hed : (addEdge g u v c).edges =
      g.edges ++ [Edge.mk u v c 0, Edge.mk v u 0 0] := by simp [addEdge]
  rw [hed] at he
  rcases List.mem_append.mp he with he | he
  · exact h e he
  · simp at he
    rcases he with rfl | rfl
    · rfl
    · rfl

theorem excessFrom_of_allZero {es : List Edge} (h : allZeroFlow es) (v n : Nat) :
    excessFrom v es n = 0 := by
  induction es generalizing n with
  | nil => rfl
  | cons e rest ih =>
    have he : e.flow = 0 := h e (List.mem_cons_self _ _)
    have hrest : allZeroFlow rest := fun e' he' => h e' (List.mem_cons_of_mem _ he')
    simp only [excessFrom, ih hrest, contrib, he]
    split_ifs <;> omega

theorem excessFrom_eq_into_sub_out (v : Nat) (es : List Edge) (n : Nat) :
    excessFrom v es n = flowIntoFrom v es n - flowOutOfFrom v es n := by
  induction es generalizing n with
  | nil => simp [excessFrom, flowIntoFrom, flowOutOfFrom]
  | cons e rest ih =>
    simp only [excessFrom, flowIntoFrom, flowOutOfFrom, contrib, ih]
    split_ifs <;> omega

/-- C6: flow conservation after Solve on a freshly built network: for
every vertex `v` other than the source and the sink, once `fordFulkerson`
completes, the sum of flow on forward edges entering `v` equals the sum
of flow on forward edges leaving `v`. -/
theorem C6_conservation (V : Nat) (ts : List (Nat × Nat × Int)) (s t v : Nat)
    (g' : Graph) (tot : Int)
    (hr : fordFulkerson (buildGraph V ts) s t = some (g', tot))
    (hvs : v ≠ s) (hvt : v ≠ t) :
    flowInto g'.edges v = flowOutOf g'.edges v := by
  have hz : ∀ w, w ≠ s → w ≠ t → excess (buildGraph V ts).edges w = 0 :=
    fun w _ _ => excessFrom_of_allZero (allZeroFlow_buildGraph V ts) w 0
  have h := ffLoop_conserve (ffFuel (buildGraph V ts)) (buildGraph V ts) 0 g' tot
    (adjInv_buildGraph V ts) (pairedStruct_buildGraph V ts) hz hr v hvs hvt
  have h2 := excessFrom_eq_into_sub_out v g'.edges 0
  unfold excess at h
  rw [h2] at h
  unfold flowInto flowOutOf
  omega

/-- Witness for C6: conservation at the interior vertex 1 of the solved
scenario A network. -/
theorem C6_conservation_witness :
    flowInto ((fordFulkerson graphA 0 5).getD (mkGraph 0, 0)).1.edges 1 =
      flowOutOf ((fordFulkerson graphA 0 5).getD (mkGraph 0, 0)).1.edges 1 :=
  C6_conservation 6 [(0, 1, 20), (0, 2, 20), (1, 2, 20), (1, 3, 20), (2, 1, 20),
      (2, 4, 20), (3, 2, 20), (3, 5, 20), (4, 3, 20), (4, 5, 20)] 0 5 1
    ((fordFulkerson graphA 0 5).getD (mkGraph 0, 0)).1
    ((fordFulkerson graphA 0 5).getD (mkGraph 0, 0)).2
    (by decide) (by decide) (by decide)

theorem buildGraph_append (V : Nat) (ts : List (Nat × Nat × Int)) (t : Nat × Nat × Int) :
    buildGraph V (ts ++ [t]) = addEdge (buildGraph V ts) t.1 t.2.1 t.2.2 := by
  simp [buildGraph, List.foldl_append]

theorem buildGraph_numEdges (V : Nat) (ts : List (Nat × Nat × Int)) :
    (buildGraph V ts).edges.length = 2 * ts.length := by
  induction ts using List.reverseRecOn with
  | nil => rfl
  | append_singleton ts t ih =>
    rw [buildGraph_append]
    simp only [addEdge]
    simp [ih]
    omega

theorem buildGraph_adjLength (V : Nat) (ts : List (Nat × Nat × Int)) :
    (buildGraph V ts).adjacencyList.length = V := by
  have := foldl_addEdge_inv (fun g => g.adjacencyList.length = V)
    (fun g u v c h => by simp [addEdge, pushAdj, h]) ts (mkGraph V) (by simp [mkGraph])
  exact this

theorem buildGraph_record (V : Nat) (ts : List (Nat × Nat × Int)) (k : Nat)
    (hk : k < ts.length) :
    (buildGraph V ts).edges.getD (2 * k) default =
      Edge.mk (ts.getD k (0, 0, 0)).1 (ts.getD k (0, 0, 0)).2.1
        (ts.getD k (0, 0, 0)).2.2 0 ∧
    (buildGraph V ts).edges.getD (2 * k + 1) default =
      Edge.mk (ts.getD k (0, 0, 0)).2.1 (ts.getD k (0, 0, 0)).1 0 0 := by
  induction ts using List.reverseRecOn with
  | nil => simp at hk
  | append_singleton ts t ih =>
    rw [buildGraph_append]
    have hed : (addEdge (buildGraph V ts) t.1 t.2.1 t.2.2).edges =
        (buildGraph V ts).edges ++ [Edge.mk t.1 t.2.1 t.2.2 0, Edge.mk t.2.1 t.1 0 0] := by
      simp [addEdge]
    rw [hed]
    simp only [List.length_append, List.length_cons, List.length_nil] at hk
    by_cases hlt : k < ts.length
    · have h1 : 2 * k < (buildGraph V ts).edges.length := by
        rw [buildGraph_numEdges]; omega
      have h2 : 2 * k + 1 < (buildGraph V ts).edges.length := by
        rw [buildGraph_numEdges]; omega
      rw [getD_append_left h2, getD_append_left h1,
        getD_append_left (show k < ts.length from hlt)]
      exact ih hlt
    · have hke : k = ts.length := by omega
      subst hke
      have e0 : ((buildGraph V ts).edges ++
          [Edge.mk t.1 t.2.1 t.2.2 0, Edge.mk t.2.1 t.1 0 0]).getD (2 * ts.length) default =
          Edge.mk t.1 t.2.1 t.2.2 0 := by
        have := getD_append_full (buildGraph V ts).edges
          [Edge.mk t.1 t.2.1 t.2.2 0, Edge.mk t.2.1 t.1 0 0] 0 default
        rw [buildGraph_numEdges] at this
        simpa using this
      have e1 : ((buildGraph V ts).edges ++
          [Edge.mk t.1 t.2.1 t.2.2 0, Edge.mk t.2.1 t.1 0 0]).getD (2 * ts.length + 1) default =
          Edge.mk t.2.1 t.1 0 0 := by
        have := getD_append_full (buildGraph V ts).edges
          [Edge.mk t.1 t.2.1 t.2.2 0, Edge.mk t.2.1 t.1 0 0] 1 default
        rw [buildGraph_numEdges] at this
        simpa using this
      have e2 : (ts ++ [t]).getD ts.length (0, 0, 0) = t := by
        simp
      rw [e0, e1, e2]
      exact ⟨rfl, rfl⟩

theorem getD_pushAdj_self {adj : List (List Nat)} {w : Nat} (j : Nat)
    (hw : w < adj.length) :
    (pushAdj adj w j).getD w [] = adj.getD w [] ++ [j] :=
  getD_set_self hw

theorem getD_pushAdj_ne {adj : List (List Nat)} {w u : Nat} (j : Nat) (h : w ≠ u) :
    (pushAdj adj w j).getD u [] = adj.getD u [] :=
  getD_set_ne h

theorem getD_pushAdj_eq {adj : List (List Nat)} {w u : Nat} (j : Nat) (h : w = u)
    (hw : u < adj.length) :
    (pushAdj adj w j).getD u [] = adj.getD u [] ++ [j] := by
  subst h
  exact getD_set_self hw

theorem buildGraph_adjacency (V : Nat) (ts : List (Nat × Nat × Int))
    (hvalid : ∀ t ∈ ts, t.1 < V ∧ t.2.1 < V) (u : Nat) :
    (buildGraph V ts).adjacencyList.getD u [] =
      (List.range (2 * ts.length)).filter
        (fun i => ((buildGraph V ts).edges.getD i default).source == u) := by
  induction ts using List.reverseRecOn with
  | nil =>
    simp only [buildGraph, List.foldl_nil, mkGraph, List.length_nil, Nat.mul_zero,
      List.range_zero, List.filter_nil]
    by_cases hu : u < V
    · simp [List.getD_eq_getElem?_getD, List.getElem?_replicate, hu]
    · simp [List.getD_eq_getElem?_getD, List.getElem?_replicate, hu]
  | append_singleton ts t ih =>
    have hvts : ∀ t' ∈ ts, t'.1 < V ∧ t'.2.1 < V :=
      fun t' ht' => hvalid t' (List.mem_append.mpr (Or.inl ht'))
    have hvt : t.1 < V ∧ t.2.1 < V :=
      hvalid t (List.mem_append.mpr (Or.inr (List.mem_singleton_self t)))
    rw [buildGraph_append]
    have hed : (addEdge (buildGraph V ts) t.1 t.2.1 t.2.2).edges =
        (buildGraph V ts).edges ++ [Edge.mk t.1 t.2.1 t.2.2 0, Edge.mk t.2.1 t.1 0 0] := by
      simp [addEdge]
    have hadj : (addEdge (buildGraph V ts) t.1 t.2.1 t.2.2).adjacencyList =
        pushAdj (pushAdj (buildGraph V ts).adjacencyList t.1 (2 * ts.length))
          t.2.1 (2 * ts.length + 1) := by
      simp [addEdge, buildGraph_numEdges]
    have hlen2 : 2 * (ts ++ [t]).length = 2 * ts.length + 1 + 1 := by
      simp
      omega
    rw [hed, hadj, hlen2, List.range_succ, List.range_succ, List.filter_append,
      List.filter_append]
    have hfold : ∀ i ∈ List.range (2 * ts.length),
        ((((buildGraph V ts).edges ++
            [Edge.mk t.1 t.2.1 t.2.2 0, Edge.mk t.2.1 t.1 0 0]).getD i default).source == u) =
          (((buildGraph V ts).edges.getD i default).source == u) := by
      intro i hi
      rw [getD_append_left (by rw [buildGraph_numEdges]; exact List.mem_range.mp hi)]
    rw [List.filter_congr hfold]
    have hnew0 : (((buildGraph V ts).edges ++
        [Edge.mk t.1 t.2.1 t.2.2 0, Edge.mk t.2.1 t.1 0 0]).getD (2 * ts.length) default).source
        = t.1 := by
      have h0 := getD_append_full (buildGraph V ts).edges
        [Edge.mk t.1 t.2.1 t.2.2 0, Edge.mk t.2.1 t.1 0 0] 0 default
      rw [buildGraph_numEdges, Nat.add_zero] at h0
      rw [h0]
      rfl
    have hnew1 : (((buildGraph V ts).edges ++
        [Edge.mk t.1 t.2.1 t.2.2 0, Edge.mk t.2.1 t.1 0 0]).getD (2 * ts.length + 1) default).source
        = t.2.1 := by
      have h1 := getD_append_full (buildGraph V ts).edges
        [Edge.mk t.1 t.2.1 t.2.2 0, Edge.mk t.2.1 t.1 0 0] 1 default
      rw [buildGraph_numEdges] at h1
      rw [h1]
      rfl
    have hVadj : (buildGraph V ts).adjacencyList.length = V := buildGraph_adjLength V ts
    have hVadj1 : (pushAdj (buildGraph V ts).adjacencyList t.1
        (2 * ts.length)).length = V := by
      simp [pushAdj, hVadj]
    by_cases hu1 : t.1 = u <;> by_cases hu2 : t.2.1 = u
    · rw [getD_pushAdj_eq _ hu2 (by rw [hVadj1]; omega),
        getD_pushAdj_eq _ hu1 (by rw [hVadj]; omega), ih hvts,
        List.filter_singleton, List.filter_singleton, hnew0, hnew1]
      simp [hu1, hu2, Bool.cond_eq_ite, beq_iff_eq]
    · rw [getD_pushAdj_ne _ hu2, getD_pushAdj_eq _ hu1 (by rw [hVadj]; omega), ih hvts,
        List.filter_singleton, List.filter_singleton, hnew0, hnew1]
      simp [hu1, hu2, Bool.cond_eq_ite, beq_iff_eq]
    · rw [getD_pushAdj_eq _ hu2 (by rw [hVadj1]; omega), getD_pushAdj_ne _ hu1, ih hvts,
        List.filter_singleton, List.filter_singleton, hnew0, hnew1]
      simp [hu1, hu2, Bool.cond_eq_ite, beq_iff_eq]
    · rw [getD_pushAdj_ne _ hu2, getD_pushAdj_ne _ hu1, ih hvts,
        List.filter_singleton, List.filter_singleton, hnew0, hnew1]
      simp [hu1, hu2, Bool.cond_eq_ite, beq_iff_eq]

/-- C10: layout of the edge arena after any sequence of (in-range)
`addEdge` calls: the arena has length `2 n`; the record at `2k` is the
k-th user edge with flow 0 and the record at `2k+1` is its reverse
partner (capacity 0, flow 0); the partner of index `i` is `i ^^^ 1`
(its source/destination are the reversal of record `i`); and every
adjacency list `adjacencyList[u]` is exactly the increasing (insertion
order) list of record indices whose source is `u`. -/
theorem C10_layout (V : Nat) (ts : List (Nat × Nat × Int))
    (hvalid : ∀ t ∈ ts, t.1 < V ∧ t.2.1 < V) :
    (buildGraph V ts).edges.length = 2 * ts.length ∧
    (∀ k, k < ts.length →
      (buildGraph V ts).edges.getD (2 * k) default =
        Edge.mk (ts.getD k (0, 0, 0)).1 (ts.getD k (0, 0, 0)).2.1
          (ts.getD k (0, 0, 0)).2.2 0 ∧
      (buildGraph V ts).edges.getD (2 * k + 1) default =
        Edge.mk (ts.getD k (0, 0, 0)).2.1 (ts.getD k (0, 0, 0)).1 0 0) ∧
    (∀ i, i < 2 * ts.length →
      ((buildGraph V ts).edges.getD (i ^^^ 1) default).source =
        ((buildGraph V ts).edges.getD i default).destination ∧
      ((buildGraph V ts).edges.getD (i ^^^ 1) default).destination =
        ((buildGraph V ts).edges.getD i default).source) ∧
    (∀ u, (buildGraph V ts).adjacencyList.getD u [] =
      (List.range (2 * ts.length)).filter
        (fun i => ((buildGraph V ts).edges.getD i default).source == u)) := by
  refine ⟨buildGraph_numEdges V ts, fun k hk => buildGraph_record V ts k hk, ?_,
    fun u => buildGraph_adjacency V ts hvalid u⟩
  intro i hi
  rcases Nat.even_or_odd i with ⟨m, hm⟩ | ⟨m, hm⟩
  · have hi' : i = 2 * m := by omega
    subst hi'
    rw [two_mul_xor_one]
    obtain ⟨h0, h1⟩ := buildGraph_record V ts m (by omega)
    rw [h0, h1]
    exact ⟨rfl, rfl⟩
  · have hi' : i = 2 * m + 1 := by omega
    subst hi'
    rw [two_mul_add_one_xor_one]
    obtain ⟨h0, h1⟩ := buildGraph_record V ts m (by omega)
    rw [h0, h1]
    exact ⟨rfl, rfl⟩

/-- Witness for C10: the scenario A network has 20 edge records, its
record 14 is the forward edge (3,5) with capacity 20 and flow 0, and the
adjacency list of vertex 2 is exactly the indices of records with
source 2. -/
theorem C10_layout_witness :
    graphA.edges.length = 2 * 10 ∧
    graphA.edges.getD (2 * 7) default = Edge.mk 3 5 20 0 ∧
    graphA.adjacencyList.getD 2 [] =
      (List.range (2 * 10)).filter
        (fun i => (graphA.edges.getD i default).source == 2) := by
  have h := C10_layout 6 [(0, 1, 20), (0, 2, 20), (1, 2, 20), (1, 3, 20), (2, 1, 20),
      (2, 4, 20), (3, 2, 20), (3, 5, 20), (4, 3, 20), (4, 5, 20)] (by decide)
  exact ⟨h.1, (h.2.1 7 (by decide)).1, h.2.2.2 2⟩
